import Mathlib

/-!
Verification of the candidate-space narrowing engine of a Wordle solver.

The development shallowly embeds the two source files of the repository:

* `wordle.py` — the forward solver (namespace `Wordle`): constraint state,
  mode controller, candidate filter, scorer and the guess/play orchestration.
* `reverse_wordle.py` — the reverse solver (namespace `ReverseWordle`):
  feedback normalisation, per-letter hint computation and the inverted-index
  intersection loop.

Python strings are modelled as `String`/`List Char`, Python sets as `Finset`,
Python dicts (which preserve insertion order when iterated) as association
lists `List (String × ℚ)`, and floating-point log-frequencies as rationals.
A Python function that can raise an exception is modelled as returning
`Option`, with `none` standing for the raised exception.
-/

set_option maxHeartbeats 1000000

namespace Wordle

/-- The two solver modes of `wordle.py` (`MODE = Enum("MODE", "EXPLORE GUESS")`). -/
inductive MODE where
  | EXPLORE
  | GUESS
deriving DecidableEq, Repr

/-- Module-level configuration constant `NUMBER_OF_EXPLORE_ROUNDS = 2`. -/
def NUMBER_OF_EXPLORE_ROUNDS : ℕ := 2

/-- Module-level configuration constant `VOWEL_MULTIPLIER = 1`. -/
def VOWEL_MULTIPLIER : ℚ := 1

/-- The mutable state of class `Wordle` as set up by `Wordle.__init__`:
mode, `exact_matches` (5 slots of `None` or a letter), the two letter sets,
the completed-round counter `guesses`, the `bad_guesses` rejection set
(a Python dict used as a set of words), and the word→log-frequency table
`wordfreqs` (a dict iterated in insertion order, hence an association list). -/
structure WState where
  mode : MODE
  exact_matches : List (Option Char)
  disallowed_letters : Finset Char
  included_letters : Finset Char
  guesses : ℕ
  bad_guesses : Finset String
  wordfreqs : List (String × ℚ)
deriving DecidableEq

/-- `Wordle.__init__`: EXPLORE mode, five unknown exact matches, empty letter
sets, zero completed rounds, no rejected guesses.  The word-frequency table is
supplied by the external Corpus Loader, so it is a parameter here. -/
def initState (wordfreqs : List (String × ℚ)) : WState :=
  { mode := MODE.EXPLORE
    exact_matches := List.replicate 5 none
    disallowed_letters := ∅
    included_letters := ∅
    guesses := 0
    bad_guesses := ∅
    wordfreqs := wordfreqs }

/-- One positional component of the anchored regular expressions built by
`regexp_guess`/`regexp_explore`.  Each component consumes exactly one
character: a literal letter, the class `[a-z]`, a negated class `[^…]`,
or the dot `.` (which matches anything except a newline). -/
inductive PosPat where
  | lit (c : Char)
  | lowerRange
  | notIn (s : Finset Char)
  | dot
deriving DecidableEq

/-- Semantics of one positional regex component on one character. -/
def patMatch : PosPat → Char → Bool
  | PosPat.lit c', c => c = c'
  | PosPat.lowerRange, c => 'a' ≤ c ∧ c ≤ 'z'
  | PosPat.notIn s, c => c ∉ s
  | PosPat.dot, c => c ≠ '\n'

/-- Semantics of a fully anchored (`^…$`) sequence of one-character
components: the word must have exactly one character per component and each
character must match its component. -/
def patsMatch : List PosPat → List Char → Bool
  | [], [] => true
  | p :: ps, c :: cs => patMatch p c && patsMatch ps cs
  | _, _ => false

/-- `Wordle.regexp_guess`: every exact match must be in its place; every other
position takes any letter (`[a-z]` when `disallowed_letters` is empty) that is
not a disallowed letter (`[^…]` otherwise).  The Python code renders this as a
regex string; the embedding keeps the positional structure directly. -/
def regexp_guess (st : WState) : List PosPat :=
  st.exact_matches.map (fun e =>
    match e with
    | some c => PosPat.lit c
    | none =>
      if st.disallowed_letters = ∅ then PosPat.lowerRange
      else PosPat.notIn st.disallowed_letters)

/-- `Wordle.regexp_explore`: a word may use only letters outside
`disallowed_letters ∪ included_letters ∪ {fixed exact matches}`; with no
constraints the regex is `^.{5}$`. -/
def regexp_explore (st : WState) : List PosPat :=
  let skip_letters := st.disallowed_letters ∪ st.included_letters ∪
    (st.exact_matches.filterMap id).toFinset
  if skip_letters = ∅ then List.replicate 5 PosPat.dot
  else List.replicate 5 (PosPat.notIn skip_letters)

/-- `Wordle.regexp`: choose the regex by mode. -/
def regexp (st : WState) : List PosPat :=
  match st.mode with
  | MODE.EXPLORE => regexp_explore st
  | MODE.GUESS => regexp_guess st

/-- Python dict subscript `self.wordfreqs[word]`.  In `guess` the key is
always present (it is drawn from the dict's own iteration), so the `0`
default of the missing-key case is never observed there. -/
def lookupFreq (wfs : List (String × ℚ)) (w : String) : ℚ :=
  match wfs.find? (fun p => p.1 = w) with
  | some p => p.2
  | none => 0

/-- The letters of `'aeiou'`. -/
def isVowel (c : Char) : Bool := c ∈ ['a', 'e', 'i', 'o', 'u']

/-- The body of the inner loop of `Wordle.compute_letter_scores`: the pair is
(current letter-score table, current value of the Python local `freq`).  At a
vowel (in EXPLORE mode) the local `freq` is first multiplied by the vowel
multiplier — mutating it for the rest of the word — and then the current
`freq` is added to the letter's score. -/
def addLetter (isExplore : Bool) (vm : ℚ) (acc : (Char → ℚ) × ℚ) (letter : Char) :
    (Char → ℚ) × ℚ :=
  let freq := if isExplore && isVowel letter then acc.2 * vm else acc.2
  (fun c => if c = letter then acc.1 c + freq else acc.1 c, freq)

/-- `Wordle.compute_letter_scores`: fold over the word-frequency table,
processing the letters of every word accepted by the regex.  The
`defaultdict(float)` becomes a total function that is `0` where never
written. -/
def compute_letter_scores (wfs : List (String × ℚ)) (isExplore : Bool) (vm : ℚ)
    (rx : String → Bool) : Char → ℚ :=
  wfs.foldl (fun scores wf =>
    if rx wf.1 then (wf.1.data.foldl (addLetter isExplore vm) (scores, wf.2)).1
    else scores)
    (fun _ => 0)

/-- Whether the current mode is EXPLORE, as tested by
`self.mode == MODE.EXPLORE` inside `compute_letter_scores`. -/
def modeIsExplore (st : WState) : Bool :=
  match st.mode with
  | MODE.EXPLORE => true
  | MODE.GUESS => false

/-- The letter-score table as recomputed by `Wordle.guess` before its scan:
`compute_letter_scores` applied to the mode's regex. -/
def letter_scores_of (st : WState) : Char → ℚ :=
  compute_letter_scores st.wordfreqs (modeIsExplore st) VOWEL_MULTIPLIER
    (fun w => patsMatch (regexp st) w.data)

/-- `Wordle.word_score_explore`: sum of the current letter scores over the
distinct letters of the word (`set(word)` in the Python). -/
def word_score_explore (st : WState) (w : String) : ℚ :=
  (w.data.dedup.map (letter_scores_of st)).sum

/-- `Wordle.word_score_guess`: the word's own log-frequency
(`self.wordfreqs[word]`). -/
def word_score_guess (st : WState) (w : String) : ℚ :=
  lookupFreq st.wordfreqs w

/-- `Wordle.word_score`: dispatch on the mode. -/
def word_score (st : WState) (w : String) : ℚ :=
  match st.mode with
  | MODE.EXPLORE => word_score_explore st w
  | MODE.GUESS => word_score_guess st w

/-- `Wordle.eligible`: always true in EXPLORE mode; in GUESS mode the
included letters must all occur in the word (`self.included_letters <=
set(word)`). -/
def eligible (st : WState) (w : String) : Bool :=
  match st.mode with
  | MODE.EXPLORE => true
  | MODE.GUESS => decide (st.included_letters ⊆ w.data.toFinset)

/-- The per-word filter of the scan in `Wordle.guess`: skip words already
rejected by the game, then require the mode regex to match, then the extra
`eligible` check. -/
def goodWord (st : WState) (w : String) : Bool :=
  if w ∈ st.bad_guesses then false
  else if patsMatch (regexp st) w.data then eligible st w
  else false

/-- One step of the running-best accumulator of `Wordle.guess`
(`best_word = (None, 0)` updated by `if score > best_word[1]`). -/
def bestStep (good : String → Bool) (score : String → ℚ)
    (best : Option String × ℚ) (w : String) : Option String × ℚ :=
  if good w then (if best.2 < score w then (some w, score w) else best) else best

/-- `Wordle.guess`: scan the word-frequency table in iteration order,
keeping the first word that strictly beats the running best score (which
starts at `0`); return the word component (`None` when never beaten). -/
def guess (st : WState) : Option String :=
  ((st.wordfreqs.map Prod.fst).foldl (bestStep (goodWord st) (word_score st))
    (none, 0)).1

/-- `Wordle.decide_mode`: switch to GUESS once the completed-round counter
reaches `NUMBER_OF_EXPLORE_ROUNDS`; EXPLORE is never re-entered. -/
def decide_mode (st : WState) : WState :=
  if NUMBER_OF_EXPLORE_ROUNDS ≤ st.guesses then { st with mode := MODE.GUESS }
  else st

/-- The loop body of `Wordle.add_hints`, recursing over `zip(guess,
hint_str)` while tracking the position `pos`.  A symbol other than
`'b'`/`'y'`/`'g'` raises `ValueError`, modelled as `none`. -/
def add_hints_go (st : WState) (pos : ℕ) : List (Char × Char) → Option WState
  | [] => some st
  | (letter, h) :: rest =>
    if h = 'b' then
      add_hints_go
        { st with disallowed_letters := insert letter st.disallowed_letters }
        (pos + 1) rest
    else if h = 'y' then
      add_hints_go
        { st with included_letters := insert letter st.included_letters }
        (pos + 1) rest
    else if h = 'g' then
      add_hints_go
        { st with exact_matches := st.exact_matches.set pos (some letter) }
        (pos + 1) rest
    else none

/-- `Wordle.add_hints`: per position of `zip(guess, hint_str)`, `b` adds the
guessed letter to `disallowed_letters`, `y` adds it to `included_letters`,
`g` fixes it as the exact match of that position. -/
def add_hints (st : WState) (guessWord hint_str : List Char) : Option WState :=
  add_hints_go st 0 (guessWord.zip hint_str)

/-- One line of feedback typed by the user in `Wordle.play` (already
stripped): either the literal `bad`, or a hint string. -/
inductive PlayInput where
  | feedback (hints : List Char)
  | bad
deriving DecidableEq

/-- One iteration of the interactive loop of `Wordle.play`.  With no guess
available in EXPLORE mode the loop switches to GUESS and `continue`s without
consuming input.  Otherwise the input is consumed: `bad` records the guess as
rejected and changes nothing else; any other line is applied via `add_hints`,
the round counter is incremented and `decide_mode` re-evaluated.  When the
guess is `None` in GUESS mode, Python would record `None` in `bad_guesses`
(invisible to every later word lookup, hence the state is unchanged here) or
crash inside `add_hints` when zipping `None` (hence `none` here). -/
def play_step (st : WState) (inp : PlayInput) : Option WState :=
  match guess st with
  | none =>
    match st.mode with
    | MODE.EXPLORE => some { st with mode := MODE.GUESS }
    | MODE.GUESS =>
      match inp with
      | PlayInput.bad => some st
      | PlayInput.feedback _ => none
  | some g =>
    match inp with
    | PlayInput.bad => some { st with bad_guesses := insert g st.bad_guesses }
    | PlayInput.feedback hs =>
      match add_hints st g.data hs with
      | some st' => some (decide_mode { st' with guesses := st'.guesses + 1 })
      | none => none

/-- Iterating `play_step` over a list of user inputs. -/
def play_steps (st : WState) : List PlayInput → Option WState
  | [] => some st
  | i :: is =>
    match play_step st i with
    | some st' => play_steps st' is
    | none => none

/-- Modelled from the spec (§4.5, for comparison with
`compute_letter_scores`): a letter's aggregate value is the sum of the
frequencies of the eligible words containing the letter at least once, each
such word counted once, with the vowel multiplier applied when the letter is
a vowel. -/
def letter_value_spec (wfs : List (String × ℚ)) (vm : ℚ) (rx : String → Bool)
    (c : Char) : ℚ :=
  ((wfs.filter (fun p => rx p.1 && c ∈ p.1.data)).map
    (fun p => p.2 * (if isVowel c then vm else 1))).sum

end Wordle

namespace ReverseWordle

/-- The `HINTS_MAP` dict of `reverse_wordle.py`, exactly as its source bytes
stand: the file is UTF-8 text whose glyph keys were mangled through a
cp1252 round-trip, so each key is a three- or four-character string
(`"â¬›"`, `"â¬œ"`, `"ðŸŸ¨"`, `"ðŸŸ©"`), not a single emoji character.
The values are the canonical symbols `b`, `b`, `y`, `g`. -/
def HINTS_MAP (s : String) : Option String :=
  if s = "â¬›" then some "b"
  else if s = "â¬œ" then some "b"
  else if s = "ðŸŸ¨" then some "y"
  else if s = "ðŸŸ©" then some "g"
  else none

/-- `canonical_hint`: `HINTS_MAP[letter] or letter`.  The subscript raises
`KeyError` when the single character `letter` is not a key (modelled as
`none`); when the lookup succeeds, a falsy (empty) value would fall back to
the letter itself — dead code, since every stored value is nonempty. -/
def canonical_hint (c : Char) : Option String :=
  match HINTS_MAP (String.mk [c]) with
  | some v => some (if v = "" then String.mk [c] else v)
  | none => none

/-- The generator expression of `canonical_hint_str`: normalise every
character, propagating a `KeyError` from any of them, and concatenate the
results. -/
def canonical_chars : List Char → Option (List Char)
  | [] => some []
  | c :: cs =>
    match canonical_hint c, canonical_chars cs with
    | some h, some hs => some (h.data ++ hs)
    | _, _ => none

/-- Python `str.lower`, modelled on the ASCII range (the inputs of interest
contain no character whose Unicode lowercasing differs from
`Char.toLower`). -/
def pyLower (s : List Char) : List Char := s.map Char.toLower

/-- Python `str.strip`: drop whitespace from both ends. -/
def pyStrip (s : List Char) : List Char :=
  ((s.dropWhile Char.isWhitespace).reverse.dropWhile Char.isWhitespace).reverse

/-- `canonical_hint_str`: lowercase and strip the raw line; return the
`None` sentinel (`some none`) on the empty line and the control words
`end`/`show`; otherwise normalise character by character.  The outer `none`
models a `KeyError` escaping from `canonical_hint`. -/
def canonical_hint_str (s : String) : Option (Option (List Char)) :=
  let t := pyStrip (pyLower s.data)
  if t = [] ∨ t = ['e', 'n', 'd'] ∨ t = ['s', 'h', 'o', 'w'] then some none
  else
    match canonical_chars t with
    | some l => some (some l)
    | none => none

/-- `hint`: the per-letter feedback of `letter` at position `index` of a
guess, against the hidden `word`: membership in the word is tested first,
then the character at `index` is compared (`word[index]` raises `IndexError`
out of range, modelled as `none`). -/
def hint (word : List Char) (letter : Char) (index : ℕ) : Option Char :=
  if letter ∈ word then
    match word.get? index with
    | some c => some (if c = letter then 'g' else 'y')
    | none => none
  else some 'b'

/-- The `enumerate` loop of `get_hint_str`, carrying the running index. -/
def get_hint_go (word : List Char) : ℕ → List Char → Option (List Char)
  | _, [] => some []
  | i, c :: cs =>
    match hint word c i, get_hint_go word (i + 1) cs with
    | some h, some hs => some (h :: hs)
    | _, _ => none

/-- `get_hint_str`: the string of per-position hints of `guessWord` against
the hidden `word`. -/
def get_hint_str (word guessWord : List Char) : Option (List Char) :=
  get_hint_go word 0 guessWord

/-- The candidate-set update of the `reverse_wordle` loop:
`if not candidates: candidates = matches` — which fires both when
`candidates` is still `None` and when it is the *empty* set — `else
candidates &= matches`. -/
def intersect_step (candidates : Option (Finset String))
    (matchSet : Finset String) : Option (Finset String) :=
  match candidates with
  | none => some matchSet
  | some s => if s = ∅ then some matchSet else some (s ∩ matchSet)

/-- Folding `intersect_step` from the initial `candidates = None` over the
index lookups of the successive feedback codes. -/
def run_codes (ms : List (Finset String)) : Option (Finset String) :=
  ms.foldl intersect_step none

/-- The control-flow outcome of one iteration of the `reverse_wordle` input
loop for one raw line. -/
inductive LoopAction where
  | skip
  | halt
  | lookup (code : List Char)
  | err
deriving DecidableEq

/-- The branch structure of the `reverse_wordle` loop body on one raw line:
a falsy normalisation (`None` or the empty string) or `'ggggg'` `continue`s;
a normalisation equal to `'end'` `break`s; otherwise the code is looked up
in the inverted index.  A `KeyError` escaping `canonical_hint_str` crashes
the loop. -/
def loop_step (s : String) : LoopAction :=
  match canonical_hint_str s with
  | none => LoopAction.err
  | some none => LoopAction.skip
  | some (some code) =>
    if code = [] ∨ code = ['g', 'g', 'g', 'g', 'g'] then LoopAction.skip
    else if code = ['e', 'n', 'd'] then LoopAction.halt
    else LoopAction.lookup code

/-- Whether the loop body would take the `break` branch on this line. -/
def loop_halts (s : String) : Bool := loop_step s = LoopAction.halt

/-- Whether the line normalises (successfully) to the string `end`. -/
def normalized_is_end (s : String) : Bool :=
  match canonical_hint_str s with
  | some (some code) => code = ['e', 'n', 'd']
  | _ => false

/-- Whether every character of a successful normalisation of the line is one
of the canonical symbols `b`, `y`, `g` (trivially true when the line does
not normalise to a code). -/
def normalized_chars_ok (s : String) : Bool :=
  match canonical_hint_str s with
  | some (some code) => code.all (fun c => c = 'b' ∨ c = 'y' ∨ c = 'g')
  | _ => true

end ReverseWordle

namespace Wordle

/-- Concrete session state used to exercise `guess`: GUESS mode, no
constraints, a one-word corpus whose word has log-frequency `0`
(a raw corpus frequency of 1). -/
def zeroFreqState : WState :=
  { initState [("slate", 0)] with mode := MODE.GUESS, guesses := 2 }

/-- Concrete session state used to exercise `guess`: GUESS mode, no
constraints, two corpus words with positive log-frequencies. -/
def twoWordGuessState : WState :=
  { initState [("crane", 1), ("slate", 2)] with mode := MODE.GUESS, guesses := 2 }

/-- Concrete fresh session over a two-word corpus with disjoint letters. -/
def twoWordSession : WState := initState [("crane", 1), ("built", 1)]

/-- `twoWordSession` after one all-black feedback round on `crane`. -/
def twoWordSessionR1 : WState :=
  { twoWordSession with
      disallowed_letters := {'c', 'r', 'a', 'n', 'e'}, guesses := 1 }

/-- `twoWordSessionR1` after a second all-black feedback round on `built`. -/
def twoWordSessionR2 : WState :=
  { twoWordSession with
      mode := MODE.GUESS
      disallowed_letters := {'c', 'r', 'a', 'n', 'e', 'b', 'u', 'i', 'l', 't'}
      guesses := 2 }

/-- Concrete constraint state: GUESS mode with only the letter `x`
disallowed. -/
def xDisallowedState : WState :=
  { initState [] with mode := MODE.GUESS, disallowed_letters := {'x'} }

/-- Concrete session state whose only corpus word has already been rejected
by the game. -/
def rejectedOnlyState : WState :=
  { initState [("crane", 1)] with mode := MODE.GUESS, bad_guesses := {"crane"} }

/-- Invariant of the running-best fold of `guess`: either no scanned word
beat the initial accumulator (which is then returned unchanged), or the
result is the first scanned word attaining the maximal score among those
that beat it — every good word strictly before it scores strictly less, and
every good word after it scores no more. -/
lemma bestFold_spec (good : String → Bool) (score : String → ℚ) :
    ∀ (l : List String) (b : Option String × ℚ),
      (l.foldl (bestStep good score) b = b ∧
        ∀ a ∈ l, good a = true → score a ≤ b.2)
      ∨ (∃ l₁ a l₂, l = l₁ ++ a :: l₂ ∧ good a = true ∧
          l.foldl (bestStep good score) b = (some a, score a) ∧
          b.2 < score a ∧
          (∀ x ∈ l₁, good x = true → score x < score a) ∧
          (∀ x ∈ l₂, good x = true → score x ≤ score a)) := by
  intro l
  induction l with
  | nil => intro b; exact Or.inl ⟨rfl, by simp⟩
  | cons a l ih =>
    intro b
    by_cases hg : good a = true
    · by_cases hlt : b.2 < score a
      · -- the head strictly beats the accumulator
        have hstep : bestStep good score b a = (some a, score a) := by
          simp [bestStep, hg, hlt]
        rcases ih (some a, score a) with ⟨heq, hall⟩ | ⟨l₁, w, l₂, hsplit, hgw, hfold, hb, hbefore, hafter⟩
        · refine Or.inr ⟨[], a, l, by simp, hg, ?_, hlt, by simp, ?_⟩
          · simpa [List.foldl_cons, hstep] using heq
          · intro x hx hgx; exact hall x hx hgx
        · refine Or.inr ⟨a :: l₁, w, l₂, by simp [hsplit], hgw, ?_, ?_, ?_, hafter⟩
          · simpa [List.foldl_cons, hstep] using hfold
          · exact lt_trans hlt hb
          · intro x hx hgx
            rcases List.mem_cons.mp hx with rfl | hx'
            · exact hb
            · exact hbefore x hx' hgx
      · -- the head does not beat the accumulator
        have hstep : bestStep good score b a = b := by
          simp [bestStep, hg, hlt]
        rcases ih b with ⟨heq, hall⟩ | ⟨l₁, w, l₂, hsplit, hgw, hfold, hb, hbefore, hafter⟩
        · refine Or.inl ⟨by simpa [List.foldl_cons, hstep] using heq, ?_⟩
          intro x hx hgx
          rcases List.mem_cons.mp hx with rfl | hx'
          · exact le_of_not_lt hlt
          · exact hall x hx' hgx
        · refine Or.inr ⟨a :: l₁, w, l₂, by simp [hsplit], hgw, ?_, hb, ?_, hafter⟩
          · simpa [List.foldl_cons, hstep] using hfold
          · intro x hx hgx
            rcases List.mem_cons.mp hx with rfl | hx'
            · exact lt_of_le_of_lt (le_of_not_lt hlt) hb
            · exact hbefore x hx' hgx
    · -- the head is filtered out
      have hstep : bestStep good score b a = b := by
        simp [bestStep, hg]
      rcases ih b with ⟨heq, hall⟩ | ⟨l₁, w, l₂, hsplit, hgw, hfold, hb, hbefore, hafter⟩
      · refine Or.inl ⟨by simpa [List.foldl_cons, hstep] using heq, ?_⟩
        intro x hx hgx
        rcases List.mem_cons.mp hx with rfl | hx'
        · exact absurd hgx hg
        · exact hall x hx' hgx
      · refine Or.inr ⟨a :: l₁, w, l₂, by simp [hsplit], hgw, ?_, hb, ?_, hafter⟩
        · simpa [List.foldl_cons, hstep] using hfold
        · intro x hx hgx
          rcases List.mem_cons.mp hx with rfl | hx'
          · exact absurd hgx hg
          · exact hbefore x hx' hgx

/-- The specification of `guess` extracted from `bestFold_spec` at the
initial accumulator `(None, 0)`. -/
lemma guess_spec (st : WState) :
    (guess st = none ↔
      ∀ w ∈ st.wordfreqs.map Prod.fst, goodWord st w = true → word_score st w ≤ 0)
    ∧ (∀ w, guess st = some w →
        goodWord st w = true ∧ 0 < word_score st w ∧
        ∃ l₁ l₂, st.wordfreqs.map Prod.fst = l₁ ++ w :: l₂ ∧
          (∀ x ∈ l₁, goodWord st x = true → word_score st x < word_score st w) ∧
          (∀ x ∈ l₂, goodWord st x = true → word_score st x ≤ word_score st w)) := by
  have h := bestFold_spec (goodWord st) (word_score st) (st.wordfreqs.map Prod.fst)
    (none, 0)
  constructor
  · constructor
    · intro hnone w hw hgw
      rcases h with ⟨_, hall⟩ | ⟨l₁, a, l₂, _, _, hfold, _, _, _⟩
      · exact hall w hw hgw
      · have hsome : guess st = some a := by unfold guess; rw [hfold]
        rw [hnone] at hsome; exact absurd hsome (by simp)
    · intro hall
      rcases h with ⟨heq, _⟩ | ⟨l₁, a, l₂, hsplit, hga, hfold, hpos, _, _⟩
      · unfold guess; rw [heq]
      · exfalso
        have hmem : a ∈ st.wordfreqs.map Prod.fst := by
          rw [hsplit]; exact List.mem_append_right _ (List.mem_cons_self _ _)
        exact absurd (hall a hmem hga) (not_le_of_lt hpos)
  · intro w hw
    rcases h with ⟨heq, _⟩ | ⟨l₁, a, l₂, hsplit, hga, hfold, hpos, hbefore, hafter⟩
    · unfold guess at hw; rw [heq] at hw; exact absurd hw (by simp)
    · have hw' : a = w := by
        unfold guess at hw; rw [hfold] at hw
        exact Option.some.inj hw
      subst hw'
      exact ⟨hga, hpos, l₁, l₂, hsplit, hbefore, hafter⟩

/-- A word returned by `guess` passed the scan's filter. -/
lemma guess_good {st : WState} {w : String} (h : guess st = some w) :
    goodWord st w = true :=
  ((guess_spec st).2 w h).1

/-- A word returned by `guess` is not in the rejection set. -/
lemma guess_not_bad {st : WState} {w : String} (h : guess st = some w) :
    w ∉ st.bad_guesses := by
  have hg := guess_good h
  by_contra hmem
  simp [goodWord, hmem] at hg

/-- Whenever `add_hints_go` succeeds, it has only grown the two letter sets
and touched `exact_matches`; mode, round counter, rejection set and corpus
are untouched. -/
lemma add_hints_go_frame :
    ∀ (ps : List (Char × Char)) (st : WState) (k : ℕ) (st' : WState),
      add_hints_go st k ps = some st' →
      st'.mode = st.mode ∧ st'.guesses = st.guesses ∧
      st'.bad_guesses = st.bad_guesses ∧ st'.wordfreqs = st.wordfreqs ∧
      st.disallowed_letters ⊆ st'.disallowed_letters ∧
      st.included_letters ⊆ st'.included_letters := by
  intro ps
  induction ps with
  | nil =>
    intro st k st' h
    simp only [add_hints_go] at h
    cases h
    exact ⟨rfl, rfl, rfl, rfl, Finset.Subset.refl _, Finset.Subset.refl _⟩
  | cons p rest ih =>
    intro st k st' h
    obtain ⟨letter, hc⟩ := p
    simp only [add_hints_go] at h
    split_ifs at h with hb hy hg
    · obtain ⟨h1, h2, h3, h4, h5, h6⟩ := ih _ _ _ h
      exact ⟨h1, h2, h3, h4,
        Finset.Subset.trans (Finset.subset_insert _ _) h5, h6⟩
    · obtain ⟨h1, h2, h3, h4, h5, h6⟩ := ih _ _ _ h
      exact ⟨h1, h2, h3, h4, h5,
        Finset.Subset.trans (Finset.subset_insert _ _) h6⟩
    · have hres := ih _ _ _ h
      exact hres


/-- `add_hints_go` succeeds on any zipped feedback whose symbols are all in
`{b, y, g}`, recording every `b`-letter in `disallowed_letters` and every
`y`-letter in `included_letters` — with no conflict check of any kind. -/
lemma add_hints_go_spec :
    ∀ (ps : List (Char × Char)) (st : WState) (k : ℕ),
      (∀ p ∈ ps, p.2 = 'b' ∨ p.2 = 'y' ∨ p.2 = 'g') →
      ∃ st', add_hints_go st k ps = some st' ∧
        (∀ l h, (l, h) ∈ ps →
          (h = 'b' → l ∈ st'.disallowed_letters) ∧
          (h = 'y' → l ∈ st'.included_letters)) := by
  intro ps
  induction ps with
  | nil => intro st k _; exact ⟨st, rfl, by simp⟩
  | cons p rest ih =>
    intro st k hvalid
    obtain ⟨letter, hc⟩ := p
    have hhead := hvalid (letter, hc) (List.mem_cons_self _ _)
    have htail : ∀ p ∈ rest, p.2 = 'b' ∨ p.2 = 'y' ∨ p.2 = 'g' :=
      fun p hp => hvalid p (List.mem_cons_of_mem _ hp)
    rcases hhead with hb | hy | hg
    · subst hb
      obtain ⟨st', hrun, hrec⟩ := ih
        { st with disallowed_letters := insert letter st.disallowed_letters }
        (k + 1) htail
      have hframe := add_hints_go_frame rest _ (k + 1) st' hrun
      refine ⟨st', by simp [add_hints_go, hrun], ?_⟩
      intro l h hmem
      rcases List.mem_cons.mp hmem with heq | hmem'
      · obtain ⟨rfl, rfl⟩ := Prod.mk.injEq _ _ _ _ ▸ heq
        refine ⟨fun _ => hframe.2.2.2.2.1 (Finset.mem_insert_self _ _), ?_⟩
        intro hby
        exact absurd hby (by decide)
      · exact hrec l h hmem'
    · subst hy
      obtain ⟨st', hrun, hrec⟩ := ih
        { st with included_letters := insert letter st.included_letters }
        (k + 1) htail
      have hframe := add_hints_go_frame rest _ (k + 1) st' hrun
      refine ⟨st', by simp [add_hints_go, hrun], ?_⟩
      intro l h hmem
      rcases List.mem_cons.mp hmem with heq | hmem'
      · obtain ⟨rfl, rfl⟩ := Prod.mk.injEq _ _ _ _ ▸ heq
        refine ⟨fun hby => absurd hby (by decide), ?_⟩
        intro _
        exact hframe.2.2.2.2.2 (Finset.mem_insert_self _ _)
      · exact hrec l h hmem'
    · subst hg
      obtain ⟨st', hrun, hrec⟩ := ih
        { st with exact_matches := st.exact_matches.set k letter }
        (k + 1) htail
      refine ⟨st', by simp [add_hints_go, hrun], ?_⟩
      intro l h hmem
      rcases List.mem_cons.mp hmem with heq | hmem'
      · obtain ⟨rfl, rfl⟩ := Prod.mk.injEq _ _ _ _ ▸ heq
        exact ⟨fun hby => absurd hby (by decide), fun hby => absurd hby (by decide)⟩
      · exact hrec l h hmem'

/-- `decide_mode` either leaves the state alone or sets the mode to GUESS;
it never changes any other field. -/
lemma decide_mode_cases (st : WState) :
    decide_mode st = st ∨ decide_mode st = { st with mode := MODE.GUESS } := by
  unfold decide_mode
  split_ifs with h
  · exact Or.inr rfl
  · exact Or.inl rfl

/-- One interactive step never moves the mode from GUESS back to EXPLORE. -/
lemma play_step_guess_stays {st : WState} {inp : PlayInput} {st' : WState}
    (h : play_step st inp = some st') (hm : st.mode = MODE.GUESS) :
    st'.mode = MODE.GUESS := by
  cases inp with
  | bad =>
    cases hguess : guess st with
    | none =>
      simp only [play_step, hguess, hm, Option.some.injEq] at h
      rw [← h]; exact hm
    | some g =>
      simp only [play_step, hguess, Option.some.injEq] at h
      rw [← h]; exact hm
  | feedback hs =>
    cases hguess : guess st with
    | none =>
      simp only [play_step, hguess, hm] at h
      exact absurd h (by simp)
    | some g =>
      simp only [play_step, hguess] at h
      cases hah : add_hints st g.data hs with
      | none => rw [hah] at h; exact absurd h (by simp)
      | some st'' =>
        rw [hah] at h
        simp only [Option.some.injEq] at h
        have hmode := (add_hints_go_frame _ _ _ _ hah).1
        rcases decide_mode_cases { st'' with guesses := st''.guesses + 1 } with
          heq | heq
        · rw [← h, heq]
          show st''.mode = MODE.GUESS
          rw [hmode]; exact hm
        · rw [← h, heq]

/-- One interactive step only grows the rejection set. -/
lemma play_step_bad_mono {st : WState} {inp : PlayInput} {st' : WState}
    (h : play_step st inp = some st') :
    st.bad_guesses ⊆ st'.bad_guesses := by
  cases inp with
  | bad =>
    cases hguess : guess st with
    | none =>
      cases hm : st.mode with
      | EXPLORE =>
        simp only [play_step, hguess, hm, Option.some.injEq] at h
        rw [← h]
      | GUESS =>
        simp only [play_step, hguess, hm, Option.some.injEq] at h
        rw [← h]
    | some g =>
      simp only [play_step, hguess, Option.some.injEq] at h
      rw [← h]
      exact Finset.subset_insert _ _
  | feedback hs =>
    cases hguess : guess st with
    | none =>
      cases hm : st.mode with
      | EXPLORE =>
        simp only [play_step, hguess, hm, Option.some.injEq] at h
        rw [← h]
      | GUESS =>
        simp only [play_step, hguess, hm] at h
        exact absurd h (by simp)
    | some g =>
      simp only [play_step, hguess] at h
      cases hah : add_hints st g.data hs with
      | none => rw [hah] at h; exact absurd h (by simp)
      | some st'' =>
        rw [hah] at h
        simp only [Option.some.injEq] at h
        have hbad := (add_hints_go_frame _ _ _ _ hah).2.2.1
        rcases decide_mode_cases { st'' with guesses := st''.guesses + 1 } with
          heq | heq <;> rw [← h, heq] <;> simp [hbad]

/-- Iterated interactive steps only grow the rejection set. -/
lemma play_steps_bad_mono :
    ∀ (is : List PlayInput) (st st' : WState),
      play_steps st is = some st' → st.bad_guesses ⊆ st'.bad_guesses := by
  intro is
  induction is with
  | nil => intro st st' h; cases h; exact Finset.Subset.refl _
  | cons i rest ih =>
    intro st st' h
    unfold play_steps at h
    cases hstep : play_step st i with
    | none => rw [hstep] at h; simp at h
    | some st'' =>
      rw [hstep] at h
      exact Finset.Subset.trans (play_step_bad_mono hstep) (ih _ _ h)

end Wordle

namespace ReverseWordle

/-- The mangled keys of `HINTS_MAP` all have three or four characters, so
looking up a single character always raises `KeyError`: `canonical_hint`
never returns a value. -/
lemma canonical_hint_none (c : Char) : canonical_hint c = none := by
  have h1 : String.mk [c] ≠ "â¬›" := by
    intro h
    have h2 := congrArg String.data h
    rw [show ("â¬›" : String).data = ['â', '¬', '›'] from rfl] at h2
    simp at h2
  have h2 : String.mk [c] ≠ "â¬œ" := by
    intro h
    have h2 := congrArg String.data h
    rw [show ("â¬œ" : String).data = ['â', '¬', 'œ'] from rfl] at h2
    simp at h2
  have h3 : String.mk [c] ≠ "ðŸŸ¨" := by
    intro h
    have h2 := congrArg String.data h
    rw [show ("ðŸŸ¨" : String).data = ['ð', 'Ÿ', 'Ÿ', '¨'] from rfl] at h2
    simp at h2
  have h4 : String.mk [c] ≠ "ðŸŸ©" := by
    intro h
    have h2 := congrArg String.data h
    rw [show ("ðŸŸ©" : String).data = ['ð', 'Ÿ', 'Ÿ', '©'] from rfl] at h2
    simp at h2
  simp [canonical_hint, HINTS_MAP, h1, h2, h3, h4]

/-- Consequently the generator expression of `canonical_hint_str` raises on
every nonempty input. -/
lemma canonical_chars_none (cs : List Char) (h : cs ≠ []) :
    canonical_chars cs = none := by
  cases cs with
  | nil => exact absurd rfl h
  | cons c cs' => simp [canonical_chars, canonical_hint_none]

/-- `canonical_hint_str` either returns the `None` sentinel or raises; it
never successfully returns a code string. -/
lemma canonical_hint_str_cases (s : String) :
    canonical_hint_str s = some none ∨ canonical_hint_str s = none := by
  simp only [canonical_hint_str]
  split_ifs with h
  · exact Or.inl rfl
  · push_neg at h
    rw [canonical_chars_none _ h.1]
    exact Or.inr rfl

/-- `hint` agrees with the specification "`g` if the guessed letter equals
the word's letter at that index, else `y` if it occurs anywhere in the word,
else `b`" at every index that holds a letter of the word. -/
lemma hint_spec {word : List Char} {i : ℕ} {w' : Char}
    (hw : word.get? i = some w') (c : Char) :
    hint word c i = some (if c = w' then 'g' else if c ∈ word then 'y' else 'b') := by
  unfold hint
  by_cases hmem : c ∈ word
  · rw [if_pos hmem, hw]
    show some (if w' = c then 'g' else 'y') =
      some (if c = w' then 'g' else if c ∈ word then 'y' else 'b')
    by_cases heq : c = w'
    · subst heq; simp
    · rw [if_neg (fun h => heq h.symm), if_neg heq, if_pos hmem]
  · have hne : c ≠ w' := fun h => hmem (h ▸ List.get?_mem hw)
    rw [if_neg hmem, if_neg hne, if_neg hmem]

/-- The enumeration loop of `get_hint_str` succeeds on any guess segment
that fits inside the word, and produces exactly the specified per-position
hints. -/
lemma get_hint_go_spec (word : List Char) :
    ∀ (gs : List Char) (k : ℕ), k + gs.length ≤ word.length →
      ∃ hs, get_hint_go word k gs = some hs ∧ hs.length = gs.length ∧
        ∀ j c w', gs.get? j = some c → word.get? (k + j) = some w' →
          hs.get? j =
            some (if c = w' then 'g' else if c ∈ word then 'y' else 'b') := by
  intro gs
  induction gs with
  | nil =>
    intro k _
    exact ⟨[], rfl, rfl, fun j c w' h => by simp at h⟩
  | cons c0 gs ih =>
    intro k hk
    have hklt : k < word.length := by
      simp only [List.length_cons] at hk; omega
    obtain ⟨w0, hw0⟩ : ∃ w0, word.get? k = some w0 := by
      cases hwk : word.get? k with
      | none => exact absurd (List.get?_eq_none.mp hwk) (not_le_of_lt hklt)
      | some w0 => exact ⟨w0, rfl⟩
    obtain ⟨hs, hrun, hlen, hspec⟩ := ih (k + 1)
      (by simp only [List.length_cons] at hk; omega)
    refine ⟨(if c0 = w0 then 'g' else if c0 ∈ word then 'y' else 'b') :: hs,
      ?_, by simp [hlen], ?_⟩
    · simp [get_hint_go, hint_spec hw0 c0, hrun]
    · intro j c w' hg hw
      cases j with
      | zero =>
        simp only [List.get?, Option.some.injEq] at hg
        simp only [Nat.add_zero] at hw
        rw [hw0] at hw
        cases hg
        cases hw
        rfl
      | succ j =>
        simp only [List.get?] at hg ⊢
        have harith : k + (j + 1) = (k + 1) + j := by omega
        rw [harith] at hw
        exact hspec j c w' hg hw

/-- Against itself, every position of a word is an exact match, so the
enumeration loop returns only `g` hints. -/
lemma get_hint_go_self :
    ∀ (cs word : List Char) (k : ℕ),
      (∀ j, j < cs.length → word.get? (k + j) = cs.get? j) →
      get_hint_go word k cs = some (List.replicate cs.length 'g') := by
  intro cs
  induction cs with
  | nil => intro word k _; rfl
  | cons c0 cs ih =>
    intro word k hsub
    have h0 : word.get? k = some c0 := by
      have h := hsub 0 (by simp)
      simpa using h
    have hmem : c0 ∈ word := List.get?_mem h0
    have hrec := ih word (k + 1) (fun j hj => by
      have h := hsub (j + 1) (by simp only [List.length_cons]; omega)
      have harith : k + (j + 1) = (k + 1) + j := by omega
      rw [harith] at h
      simpa using h)
    have hh : hint word c0 k = some 'g' := by
      unfold hint
      rw [if_pos hmem, h0]
      show some (if c0 = c0 then 'g' else 'y') = some 'g'
      rw [if_pos rfl]
    simp [get_hint_go, hh, hrec, List.replicate_succ]

end ReverseWordle

namespace ReverseWordleClaims

open ReverseWordle

/-- C2 (code_bug evidence): normalising an already-canonical code string
does not return it unchanged — it raises `KeyError` (`HINTS_MAP` is
subscripted although its keys are glyph strings, never the letters
`b`/`y`/`g`; the dead `or letter` fallback shows the intended
pass-through). -/
theorem c2_canonical_idempotence_fails_on_canonical_codes :
    canonical_hint_str "bbbbb" = none ∧
    canonical_hint_str "ggggg" = none ∧
    canonical_hint_str "bygyb" = none := by
  refine ⟨?_, ?_, ?_⟩ <;> rfl

/-- C6: the per-position feedback of a same-length guess against the hidden
word is `g` where the guessed letter equals the word's letter, else `y`
where the guessed letter occurs anywhere in the word, else `b`; and a word
compared against itself yields the all-`g` code. -/
theorem c6_hint_semantics :
    (∀ (word guessWord : List Char), guessWord.length = word.length →
      ∃ hs, get_hint_str word guessWord = some hs ∧
        hs.length = guessWord.length ∧
        ∀ j c w', guessWord.get? j = some c → word.get? j = some w' →
          hs.get? j =
            some (if c = w' then 'g' else if c ∈ word then 'y' else 'b'))
    ∧ (∀ word : List Char,
        get_hint_str word word = some (List.replicate word.length 'g')) := by
  constructor
  · intro word gw hlen
    obtain ⟨hs, h1, h2, h3⟩ := get_hint_go_spec word gw 0 (by omega)
    exact ⟨hs, h1, h2, fun j c w' hg hw => h3 j c w' hg (by simpa using hw)⟩
  · intro word
    exact get_hint_go_self word word 0 (fun j _ => by simp)

/-- Witness for C6 at the concrete pair `word = crane`, `guess = track`. -/
theorem c6_hint_semantics_witness :
    ∃ hs, get_hint_str "crane".data "track".data = some hs ∧
      hs.length = "track".data.length ∧
      ∀ j c w', "track".data.get? j = some c → "crane".data.get? j = some w' →
        hs.get? j =
          some (if c = w' then 'g' else if c ∈ "crane".data then 'y' else 'b') :=
  c6_hint_semantics.1 "crane".data "track".data (by decide)

/-- C10: the input `end` normalises to the `None` sentinel; a successful
normalisation only ever contains the symbols `b`, `y`, `g` and is never the
string `end`; hence the `break` branch of the `reverse_wordle` loop that
compares the normalised value with `'end'` can never be taken. -/
theorem c10_end_break_unreachable :
    canonical_hint_str "end" = some none ∧
    (∀ s : String, normalized_chars_ok s = true) ∧
    (∀ s : String, normalized_is_end s = false) ∧
    (∀ s : String, loop_halts s = false) := by
  refine ⟨rfl, ?_, ?_, ?_⟩
  · intro s
    rcases canonical_hint_str_cases s with h | h <;> simp [normalized_chars_ok, h]
  · intro s
    rcases canonical_hint_str_cases s with h | h <;> simp [normalized_is_end, h]
  · intro s
    rcases canonical_hint_str_cases s with h | h <;>
      simp [loop_halts, loop_step, h]

/-- C1 (counterexample): once the running candidate set has become empty, a
subsequent feedback code does not intersect — `if not candidates` also
fires on the empty set — so the candidate set is *replaced* by the new
lookup and its size grows from 0 to 1. -/
theorem c1_empty_reset_counterexample :
    run_codes [{"apple", "ample"}, {"spelt"}] = some (∅ : Finset String) ∧
    run_codes [{"apple", "ample"}, {"spelt"}, {"crane"}] =
      some {"crane"} ∧
    (∅ : Finset String).card < ({"crane"} : Finset String).card := by
  refine ⟨?_, ?_, ?_⟩ <;> decide

/-- C1 (amended): as long as the running candidate set is nonempty, each
applied feedback code intersects it and its size never increases. -/
theorem c1_nonempty_step_monotone (s m : Finset String) (h : s ≠ ∅) :
    ∃ s', intersect_step (some s) m = some s' ∧ s'.card ≤ s.card := by
  refine ⟨s ∩ m, ?_, Finset.card_le_card Finset.inter_subset_left⟩
  simp only [intersect_step]
  rw [if_neg h]

/-- Witness for the amended C1 at a concrete nonempty running set. -/
theorem c1_nonempty_step_monotone_witness :
    ∃ s', intersect_step (some {"apple"}) {"spelt"} = some s' ∧
      s'.card ≤ ({"apple"} : Finset String).card :=
  c1_nonempty_step_monotone {"apple"} {"spelt"} (by decide)

end ReverseWordleClaims

namespace Wordle

/-- With the neutral multiplier `1`, the inner letter loop of
`compute_letter_scores` leaves the running `freq` unchanged and adds the
word's frequency to a letter once per occurrence of that letter. -/
lemma addLetter_run (e : Bool) :
    ∀ (ls : List Char) (p : (Char → ℚ) × ℚ) (c : Char),
      (ls.foldl (addLetter e 1) p).1 c = p.1 c + p.2 * ls.count c ∧
      (ls.foldl (addLetter e 1) p).2 = p.2 := by
  intro ls
  induction ls with
  | nil => intro p c; simp
  | cons l0 ls ih =>
    intro p c
    rw [List.foldl_cons]
    have h2 : (addLetter e 1 p l0).2 = p.2 := by
      simp [addLetter, mul_one]
    have h1 : (addLetter e 1 p l0).1 c =
        if c = l0 then p.1 c + p.2 else p.1 c := by
      simp [addLetter, mul_one]
    obtain ⟨ih1, ih2⟩ := ih (addLetter e 1 p l0) c
    rw [ih1, ih2, h1, h2]
    refine ⟨?_, rfl⟩
    by_cases hc : c = l0
    · subst hc
      rw [if_pos rfl, List.count_cons_self]
      push_cast
      ring
    · rw [if_neg hc, List.count_cons_of_ne hc]

/-- The outer fold of `compute_letter_scores` with multiplier `1`, started
from an arbitrary accumulator. -/
lemma compute_letter_scores_go (e : Bool) (rx : String → Bool) :
    ∀ (wfs : List (String × ℚ)) (sc : Char → ℚ) (c : Char),
      (wfs.foldl (fun scores wf =>
          if rx wf.1 then (wf.1.data.foldl (addLetter e 1) (scores, wf.2)).1
          else scores) sc) c =
        sc c + ((wfs.filter (fun p => rx p.1)).map
          (fun p => p.2 * (p.1.data.count c : ℚ))).sum := by
  intro wfs
  induction wfs with
  | nil => intro sc c; simp
  | cons wf wfs ih =>
    intro sc c
    rw [List.foldl_cons]
    by_cases hrx : rx wf.1
    · rw [if_pos hrx]
      rw [ih]
      have hinner := (addLetter_run e wf.1.data (sc, wf.2) c).1
      rw [hinner]
      rw [List.filter_cons_of_pos (by simpa using hrx), List.map_cons,
        List.sum_cons]
      ring
    · rw [if_neg hrx]
      rw [ih]
      rw [List.filter_cons_of_neg (by simpa using hrx)]

/-- `compute_letter_scores` with the neutral multiplier: a letter's
aggregate is the sum over regex-eligible words of frequency times the
letter's occurrence count in that word. -/
lemma compute_letter_scores_vm_one (e : Bool) (rx : String → Bool)
    (wfs : List (String × ℚ)) (c : Char) :
    compute_letter_scores wfs e 1 rx c =
      ((wfs.filter (fun p => rx p.1)).map
        (fun p => p.2 * (p.1.data.count c : ℚ))).sum := by
  have h := compute_letter_scores_go e rx wfs (fun _ => 0) c
  simpa [compute_letter_scores] using h

end Wordle

namespace WordleClaims

open Wordle

/-- C5 (counterexample): in EXPLORE mode a letter's aggregate is *not* the
sum of the frequencies of the eligible words containing it at least once.
With the one-word corpus `aabbb` of frequency 1 and vowel multiplier 2, the
letter `a` accumulates 6 (each occurrence adds the running frequency, which
doubles at every vowel) while the spec formula gives 2; the consonant `b`
accumulates 12 (inflated by the vowels seen earlier in the word) while the
spec formula gives 1.  Even at the default neutral multiplier, `a`
accumulates once per occurrence (2), not once per word (1). -/
theorem c5_letter_aggregate_counterexample :
    compute_letter_scores [("aabbb", 1)] true 2 (fun _ => true) 'a' = 6 ∧
    letter_value_spec [("aabbb", 1)] 2 (fun _ => true) 'a' = 2 ∧
    compute_letter_scores [("aabbb", 1)] true 2 (fun _ => true) 'b' = 12 ∧
    letter_value_spec [("aabbb", 1)] 2 (fun _ => true) 'b' = 1 ∧
    compute_letter_scores [("aabbb", 1)] true VOWEL_MULTIPLIER
      (fun _ => true) 'a' = 2 ∧
    letter_value_spec [("aabbb", 1)] VOWEL_MULTIPLIER (fun _ => true) 'a' = 1 := by
  refine ⟨?_, ?_, ?_, ?_, ?_, ?_⟩ <;>
    norm_num +decide [compute_letter_scores, addLetter, isVowel,
      letter_value_spec, VOWEL_MULTIPLIER, List.filter, String.data]

/-- C5 (amended): with the default neutral vowel multiplier
(`VOWEL_MULTIPLIER = 1`), each letter's EXPLORE aggregate equals the sum
over the regex-eligible words of the word's frequency multiplied by the
letter's occurrence count in that word (a doubled letter counts its word's
frequency twice); with a non-neutral multiplier the implementation further
compounds the multiplier across a word's vowel occurrences, which also
inflates the contributions of the word's other letters. -/
theorem c5_letter_aggregate_amended (wfs : List (String × ℚ))
    (rx : String → Bool) (c : Char) :
    compute_letter_scores wfs true VOWEL_MULTIPLIER rx c =
      ((wfs.filter (fun p => rx p.1)).map
        (fun p => p.2 * (p.1.data.count c : ℚ))).sum :=
  compute_letter_scores_vm_one true rx wfs c

end WordleClaims

namespace WordleClaims

open Wordle

/-- C3 (counterexample): a feedback code marking the same letter black at
one position and yellow at another is recorded without any error: after one
`add_hints` call on guess `aabcd` with hints `bybbb`, the letter `a` sits in
`disallowed_letters` and in `included_letters` simultaneously.  No
`ConstraintConflictError` (or any conflict check) exists in the code. -/
theorem c3_conflict_recorded_counterexample :
    ∃ st', add_hints (initState []) "aabcd".data "bybbb".data = some st' ∧
      'a' ∈ st'.disallowed_letters ∧ 'a' ∈ st'.included_letters := by
  refine ⟨(add_hints (initState []) "aabcd".data "bybbb".data).getD
    (initState []), ?_, ?_, ?_⟩ <;> decide

/-- C3 (amended): `add_hints` records every symbol of a `{b,y,g}` feedback
code unconditionally — each `b`-letter joins `disallowedLetters` and each
`y`-letter joins `includedLetters`, even when this puts one letter in both
sets; it never fails on such a code (the only rejection, `ValueError`, is
for a symbol outside `{b,y,g}`), and it does not touch the mode, the round
counter or the rejection set. -/
theorem c3_add_hints_amended (st : WState) (guessWord hint_str : List Char)
    (hvalid : ∀ p ∈ guessWord.zip hint_str,
      p.2 = 'b' ∨ p.2 = 'y' ∨ p.2 = 'g') :
    ∃ st', add_hints st guessWord hint_str = some st' ∧
      (∀ l h, (l, h) ∈ guessWord.zip hint_str →
        (h = 'b' → l ∈ st'.disallowed_letters) ∧
        (h = 'y' → l ∈ st'.included_letters)) ∧
      st.disallowed_letters ⊆ st'.disallowed_letters ∧
      st.included_letters ⊆ st'.included_letters ∧
      st'.mode = st.mode ∧ st'.guesses = st.guesses ∧
      st'.bad_guesses = st.bad_guesses := by
  obtain ⟨st', hrun, hrec⟩ := add_hints_go_spec _ st 0 hvalid
  have hframe := add_hints_go_frame _ _ _ _ hrun
  exact ⟨st', hrun, hrec, hframe.2.2.2.2.1, hframe.2.2.2.2.2, hframe.1,
    hframe.2.1, hframe.2.2.1⟩

/-- Witness for the amended C3 on a fresh state and the code `bygbb`. -/
theorem c3_add_hints_amended_witness :
    ∃ st', add_hints (initState []) "abcde".data "bygbb".data = some st' ∧
      (∀ l h, (l, h) ∈ "abcde".data.zip "bygbb".data →
        (h = 'b' → l ∈ st'.disallowed_letters) ∧
        (h = 'y' → l ∈ st'.included_letters)) ∧
      (initState []).disallowed_letters ⊆ st'.disallowed_letters ∧
      (initState []).included_letters ⊆ st'.included_letters ∧
      st'.mode = (initState []).mode ∧
      st'.guesses = (initState []).guesses ∧
      st'.bad_guesses = (initState []).bad_guesses :=
  c3_add_hints_amended (initState []) "abcde".data "bygbb".data (by decide)

/-- C4 (counterexample): `guess` does *not* return `None` only when no
eligible word exists.  In `zeroFreqState` the word `slate` is eligible and
not rejected (`goodWord` accepts it), yet `guess` returns `None`, because
the running best starts at `(None, 0)` and a word whose score is `0`
(corpus log-frequency `log 1 = 0`) never strictly beats it. -/
theorem c4_none_despite_eligible_counterexample :
    goodWord zeroFreqState "slate" = true ∧ guess zeroFreqState = none := by
  constructor
  · norm_num +decide [goodWord, eligible, regexp, regexp_guess, patsMatch,
      patMatch, zeroFreqState, initState, List.replicate]
  · norm_num +decide [guess, bestStep, goodWord, eligible, regexp,
      regexp_guess, patsMatch, patMatch, word_score, word_score_guess,
      lookupFreq, zeroFreqState, initState, List.foldl, List.replicate]

/-- C4 (amended): `guess` returns `None` iff no eligible, non-rejected
corpus word has score strictly greater than `0`; and when it returns a
word, that word is eligible, has positive score, and is the first word in
corpus iteration order attaining the maximal score — every eligible word
before it scores strictly less and every eligible word after it scores no
more (ties keep the earlier-seen word). -/
theorem c4_guess_argmax_amended (st : WState) :
    (guess st = none ↔
      ∀ w ∈ st.wordfreqs.map Prod.fst, goodWord st w = true →
        word_score st w ≤ 0)
    ∧ (∀ w, guess st = some w →
        goodWord st w = true ∧ 0 < word_score st w ∧
        ∃ l₁ l₂, st.wordfreqs.map Prod.fst = l₁ ++ w :: l₂ ∧
          (∀ x ∈ l₁, goodWord st x = true →
            word_score st x < word_score st w) ∧
          (∀ x ∈ l₂, goodWord st x = true →
            word_score st x ≤ word_score st w)) :=
  guess_spec st

/-- Witness for the amended C4: in the two-word corpus of
`twoWordGuessState`, `guess` returns `slate` and the theorem yields its
argmax certificate. -/
theorem c4_guess_argmax_amended_witness :
    goodWord twoWordGuessState "slate" = true ∧
    0 < word_score twoWordGuessState "slate" ∧
    ∃ l₁ l₂, twoWordGuessState.wordfreqs.map Prod.fst = l₁ ++ "slate" :: l₂ ∧
      (∀ x ∈ l₁, goodWord twoWordGuessState x = true →
        word_score twoWordGuessState x < word_score twoWordGuessState "slate") ∧
      (∀ x ∈ l₂, goodWord twoWordGuessState x = true →
        word_score twoWordGuessState x ≤ word_score twoWordGuessState "slate") :=
  (c4_guess_argmax_amended twoWordGuessState).2 "slate" (by
    norm_num +decide [guess, bestStep, goodWord, eligible, regexp,
      regexp_guess, patsMatch, patMatch, word_score, word_score_guess,
      lookupFreq, twoWordGuessState, initState, List.foldl, List.replicate,
      List.find?])

end WordleClaims

namespace WordleClaims

open Wordle

/-- C7: the Mode Controller never leaves GUESS once entered; from a fresh
state with `NUMBER_OF_EXPLORE_ROUNDS = 2`, one applied (non-`bad`) feedback
round leaves the mode EXPLORE with one completed round, and a second
applied round makes it GUESS; and whenever EXPLORE yields no candidate,
the play loop promotes the mode to GUESS immediately, regardless of the
round count. -/
theorem c7_mode_controller :
    (∀ (st : WState) (inp : PlayInput) (st' : WState),
        play_step st inp = some st' → st.mode = MODE.GUESS →
        st'.mode = MODE.GUESS)
    ∧ (∀ (st : WState) (g₁ : String) (h₁ : List Char) (st₁ : WState),
        st.mode = MODE.EXPLORE → st.guesses = 0 →
        guess st = some g₁ →
        play_step st (PlayInput.feedback h₁) = some st₁ →
        st₁.mode = MODE.EXPLORE ∧ st₁.guesses = 1 ∧
        ∀ (g₂ : String) (h₂ : List Char) (st₂ : WState),
          guess st₁ = some g₂ →
          play_step st₁ (PlayInput.feedback h₂) = some st₂ →
          st₂.mode = MODE.GUESS)
    ∧ (∀ (st : WState) (inp : PlayInput),
        st.mode = MODE.EXPLORE → guess st = none →
        play_step st inp = some { st with mode := MODE.GUESS }) := by
  refine ⟨fun st inp st' h hm => play_step_guess_stays h hm, ?_, ?_⟩
  · intro st g₁ h₁ st₁ hm hg0 hguess hstep
    simp only [play_step, hguess] at hstep
    cases hah : add_hints st g₁.data h₁ with
    | none => rw [hah] at hstep; exact absurd hstep (by simp)
    | some st'' =>
      rw [hah] at hstep
      simp only [Option.some.injEq] at hstep
      have hframe := add_hints_go_frame _ _ _ _ hah
      have hmode'' : st''.mode = MODE.EXPLORE := by rw [hframe.1, hm]
      have hg'' : st''.guesses = 0 := by rw [hframe.2.1, hg0]
      have hdm : decide_mode { st'' with guesses := st''.guesses + 1 } =
          { st'' with guesses := st''.guesses + 1 } := by
        unfold decide_mode
        rw [if_neg]
        simp [hg'', NUMBER_OF_EXPLORE_ROUNDS]
      rw [← hstep, hdm]
      refine ⟨hmode'', by simp [hg''], ?_⟩
      intro g₂ h₂ st₂ hguess₂ hstep₂
      simp only [play_step, hguess₂] at hstep₂
      cases hah₂ : add_hints { st'' with guesses := st''.guesses + 1 }
          g₂.data h₂ with
      | none => rw [hah₂] at hstep₂; exact absurd hstep₂ (by simp)
      | some st₃ =>
        rw [hah₂] at hstep₂
        simp only [Option.some.injEq] at hstep₂
        have hframe₂ := add_hints_go_frame _ _ _ _ hah₂
        have hg₃ : st₃.guesses = 1 := by
          rw [hframe₂.2.1]; simp [hg'']
        rw [← hstep₂]
        unfold decide_mode
        rw [if_pos]
        simp [hg₃, NUMBER_OF_EXPLORE_ROUNDS]
  · intro st inp hm hguess
    simp [play_step, hguess, hm]

/-- Witness for C7 on a concrete fresh session over the corpus
`crane, built`: after one all-black round the mode is still EXPLORE with
one completed round; after the second, it is GUESS. -/
theorem c7_mode_controller_witness :
    twoWordSessionR1.mode = MODE.EXPLORE ∧ twoWordSessionR1.guesses = 1 ∧
    twoWordSessionR2.mode = MODE.GUESS := by
  have hg1 : guess twoWordSession = some "crane" := by
    norm_num +decide [guess, bestStep, goodWord, eligible, regexp,
      regexp_explore, patsMatch, patMatch, word_score, word_score_explore,
      letter_scores_of, compute_letter_scores, addLetter, isVowel,
      modeIsExplore, VOWEL_MULTIPLIER, lookupFreq, twoWordSession, initState,
      List.foldl, List.replicate, List.dedup, List.filterMap, String.data]
  have hs1 : play_step twoWordSession (PlayInput.feedback "bbbbb".data) =
      some twoWordSessionR1 := by
    norm_num +decide [play_step, guess, bestStep, goodWord, eligible, regexp,
      regexp_explore, patsMatch, patMatch, word_score, word_score_explore,
      letter_scores_of, compute_letter_scores, addLetter, isVowel,
      modeIsExplore, VOWEL_MULTIPLIER, lookupFreq, twoWordSession,
      twoWordSessionR1, initState, add_hints, add_hints_go, decide_mode,
      NUMBER_OF_EXPLORE_ROUNDS, List.foldl, List.replicate, List.dedup,
      List.filterMap, String.data, WState.mk.injEq]
  have hg2 : guess twoWordSessionR1 = some "built" := by
    norm_num +decide [guess, bestStep, goodWord, eligible, regexp,
      regexp_explore, patsMatch, patMatch, word_score, word_score_explore,
      letter_scores_of, compute_letter_scores, addLetter, isVowel,
      modeIsExplore, VOWEL_MULTIPLIER, lookupFreq, twoWordSessionR1,
      twoWordSession, initState, List.foldl, List.replicate, List.dedup,
      List.filterMap, String.data]
  have hs2 : play_step twoWordSessionR1 (PlayInput.feedback "bbbbb".data) =
      some twoWordSessionR2 := by
    norm_num +decide [play_step, guess, bestStep, goodWord, eligible, regexp,
      regexp_explore, patsMatch, patMatch, word_score, word_score_explore,
      letter_scores_of, compute_letter_scores, addLetter, isVowel,
      modeIsExplore, VOWEL_MULTIPLIER, lookupFreq, twoWordSessionR1,
      twoWordSessionR2, twoWordSession, initState, add_hints, add_hints_go,
      decide_mode, NUMBER_OF_EXPLORE_ROUNDS, List.foldl, List.replicate,
      List.dedup, List.filterMap, String.data, WState.mk.injEq]
  have h := c7_mode_controller.2.1 twoWordSession "crane" "bbbbb".data
    twoWordSessionR1 rfl rfl hg1 hs1
  exact ⟨h.1, h.2.1, h.2.2 "built" "bbbbb".data twoWordSessionR2 hg2 hs2⟩

/-- C9: applying the literal `bad` feedback only inserts the guessed word
into `bad_guesses` — the round counter, exact matches, disallowed and
included letters (and the mode) are untouched; and once a word is in
`bad_guesses`, no later `guess` call of the same session (after any
sequence of further steps) ever returns it. -/
theorem c9_bad_guess_frame_and_persistence :
    (∀ (st : WState) (g : String), guess st = some g →
      ∃ st', play_step st PlayInput.bad = some st' ∧
        st'.bad_guesses = insert g st.bad_guesses ∧
        st'.guesses = st.guesses ∧
        st'.exact_matches = st.exact_matches ∧
        st'.disallowed_letters = st.disallowed_letters ∧
        st'.included_letters = st.included_letters ∧
        st'.mode = st.mode)
    ∧ (∀ (st : WState) (w : String) (is : List PlayInput) (st' : WState),
        w ∈ st.bad_guesses → play_steps st is = some st' →
        guess st' ≠ some w) := by
  constructor
  · intro st g hg
    refine ⟨{ st with bad_guesses := insert g st.bad_guesses },
      ?_, rfl, rfl, rfl, rfl, rfl, rfl⟩
    simp [play_step, hg]
  · intro st w is st' hw hsteps hguess
    exact guess_not_bad hguess (play_steps_bad_mono is st st' hsteps hw)

/-- Witness for C9: the `bad` step on a concrete state, and the rejected
word `crane` not being guessed in a session whose rejection set holds it. -/
theorem c9_bad_guess_frame_and_persistence_witness :
    (∃ st', play_step twoWordGuessState PlayInput.bad = some st' ∧
      st'.bad_guesses = insert "slate" twoWordGuessState.bad_guesses ∧
      st'.guesses = twoWordGuessState.guesses ∧
      st'.exact_matches = twoWordGuessState.exact_matches ∧
      st'.disallowed_letters = twoWordGuessState.disallowed_letters ∧
      st'.included_letters = twoWordGuessState.included_letters ∧
      st'.mode = twoWordGuessState.mode) ∧
    guess rejectedOnlyState ≠ some "crane" := by
  constructor
  · refine c9_bad_guess_frame_and_persistence.1 twoWordGuessState "slate" ?_
    norm_num +decide [guess, bestStep, goodWord, eligible, regexp,
      regexp_guess, patsMatch, patMatch, word_score, word_score_guess,
      lookupFreq, twoWordGuessState, initState, List.foldl, List.replicate,
      List.find?]
  · exact c9_bad_guess_frame_and_persistence.2 rejectedOnlyState "crane" []
      rejectedOnlyState (by decide) rfl

end WordleClaims

namespace Wordle

/-- A positional pattern list matches a character list exactly when the
lengths agree and every position matches pointwise. -/
lemma patsMatch_iff :
    ∀ (ps : List PosPat) (cs : List Char),
      patsMatch ps cs = true ↔
        (ps.length = cs.length ∧
          ∀ i p c, ps.get? i = some p → cs.get? i = some c →
            patMatch p c = true) := by
  intro ps
  induction ps with
  | nil =>
    intro cs
    cases cs with
    | nil => simp [patsMatch]
    | cons c cs => simp [patsMatch]
  | cons p ps ih =>
    intro cs
    cases cs with
    | nil => simp [patsMatch]
    | cons c cs =>
      simp only [patsMatch, Bool.and_eq_true, List.length_cons]
      constructor
      · rintro ⟨hp, hrest⟩
        obtain ⟨hlen, hpoint⟩ := (ih cs).mp hrest
        refine ⟨by omega, ?_⟩
        intro i q d hq hd
        cases i with
        | zero =>
          simp only [List.get?, Option.some.injEq] at hq hd
          cases hq; cases hd; exact hp
        | succ i =>
          simp only [List.get?] at hq hd
          exact hpoint i q d hq hd
      · rintro ⟨hlen, hpoint⟩
        refine ⟨hpoint 0 p c rfl rfl, (ih cs).mpr ⟨by omega, ?_⟩⟩
        intro i q d hq hd
        exact hpoint (i + 1) q d (by simpa [List.get?] using hq)
          (by simpa [List.get?] using hd)

end Wordle

namespace WordleClaims

open Wordle

/-- C8: in GUESS mode, a lowercase five-letter word passes the scan filter
(the regex, the `eligible` post-check and the rejection check) iff its
letter equals every fixed exact match at that position, avoids
`disallowed_letters` at every unfixed position, contains every letter of
`included_letters` somewhere (set semantics), and is not a rejected
guess. -/
theorem c8_guess_filter (st : WState) (w : String)
    (hm : st.mode = MODE.GUESS)
    (hlen5 : st.exact_matches.length = 5)
    (hw5 : w.data.length = 5)
    (hlc : ∀ c ∈ w.data, 'a' ≤ c ∧ c ≤ 'z') :
    goodWord st w = true ↔
      ((∀ i c, st.exact_matches.get? i = some (some c) →
          w.data.get? i = some c) ∧
       (∀ i c, st.exact_matches.get? i = some none →
          w.data.get? i = some c → c ∉ st.disallowed_letters) ∧
       st.included_letters ⊆ w.data.toFinset ∧
       w ∉ st.bad_guesses) := by
  by_cases hbad : w ∈ st.bad_guesses
  · simp only [goodWord, if_pos hbad]
    constructor
    · intro h; exact absurd h (by simp)
    · intro hrhs; exact absurd hbad hrhs.2.2.2
  · simp only [goodWord, if_neg hbad]
    have hre : regexp st = regexp_guess st := by
      simp only [regexp, hm]
    have heli : eligible st w =
        decide (st.included_letters ⊆ w.data.toFinset) := by
      simp only [eligible, hm]
    rw [hre, heli]
    constructor
    · intro h
      by_cases hpm : patsMatch (regexp_guess st) w.data = true
      · rw [if_pos hpm] at h
        obtain ⟨hlen, hpoint⟩ := (patsMatch_iff _ _).mp hpm
        refine ⟨?_, ?_, by simpa using h, hbad⟩
        · intro i c hex
          have hi : i < st.exact_matches.length := by
            by_contra hge
            rw [List.get?_eq_none.mpr (le_of_not_lt hge)] at hex
            exact absurd hex (by simp)
          have hiw : i < w.data.length := by omega
          obtain ⟨wc, hwc⟩ : ∃ wc, w.data.get? i = some wc := by
            cases hq : w.data.get? i with
            | none =>
              exact absurd (List.get?_eq_none.mp hq) (not_le_of_lt hiw)
            | some wc => exact ⟨wc, rfl⟩
          have hps : (regexp_guess st).get? i = some (PosPat.lit c) := by
            simp only [regexp_guess, List.get?_map, hex, Option.map_some']
          have hmm := hpoint i _ _ hps hwc
          simp only [patMatch, decide_eq_true_eq] at hmm
          rw [hwc, hmm]
        · intro i c hex hwc
          by_cases hdis : st.disallowed_letters = ∅
          · rw [hdis]; exact Finset.not_mem_empty c
          · have hps : (regexp_guess st).get? i =
                some (PosPat.notIn st.disallowed_letters) := by
              simp only [regexp_guess, List.get?_map, hex, Option.map_some',
                if_neg hdis]
            have hmm := hpoint i _ _ hps hwc
            simpa [patMatch] using hmm
      · rw [if_neg hpm] at h
        exact absurd h (by simp)
    · rintro ⟨hex, hdisal, hinc, _⟩
      have hpm : patsMatch (regexp_guess st) w.data = true := by
        apply (patsMatch_iff _ _).mpr
        refine ⟨by simp [regexp_guess, hlen5, hw5], ?_⟩
        intro i p c hp hc
        simp only [regexp_guess, List.get?_map] at hp
        cases hem : st.exact_matches.get? i with
        | none => rw [hem] at hp; exact absurd hp (by simp)
        | some e =>
          rw [hem] at hp
          simp only [Option.map_some', Option.some.injEq] at hp
          cases e with
          | some c0 =>
            simp only [] at hp
            have hwi := hex i c0 hem
            rw [hc] at hwi
            have hcc : c = c0 := by
              exact Option.some.inj hwi
            rw [← hp]
            simp [patMatch, hcc]
          | none =>
            by_cases hdis : st.disallowed_letters = ∅
            · rw [← hp]
              simp only [if_pos hdis, patMatch, decide_eq_true_eq]
              exact hlc c (List.get?_mem hc)
            · rw [← hp]
              simp only [if_neg hdis, patMatch, decide_eq_true_eq]
              exact hdisal i c hem hc
      rw [if_pos hpm]
      simpa using hinc

/-- Witness for C8: in the concrete state with `x` disallowed, the word
`apple` passes the filter, so the theorem yields its positional and
containment certificate. -/
theorem c8_guess_filter_witness :
    (∀ i c, xDisallowedState.exact_matches.get? i = some (some c) →
        "apple".data.get? i = some c) ∧
    (∀ i c, xDisallowedState.exact_matches.get? i = some none →
        "apple".data.get? i = some c →
        c ∉ xDisallowedState.disallowed_letters) ∧
    xDisallowedState.included_letters ⊆ "apple".data.toFinset ∧
    "apple" ∉ xDisallowedState.bad_guesses :=
  (c8_guess_filter xDisallowedState "apple" rfl (by decide) (by decide)
    (by decide)).mp (by decide)

end WordleClaims
